import Mathlib

/-!
Verification of the offline-first note synchronization and the inline
image-placeholder codec of `src/components/questions/QuestionNotes.tsx`
(and the legacy-placeholder migration of `src/components/ui/rich-text-input.tsx`).

Strings are modelled as `List Char`.  JavaScript regular-expression scans
(`regex.exec` in a loop, `String.replace` with a global regex) are modelled by
left-to-right scanners that find leftmost non-overlapping matches; because the
regexes in the source pair a negated character class with the very terminator
it excludes, each match is forced to end at the first terminator, so the
scanners below are deterministic transcriptions of the regex semantics.
Scanners take a fuel argument (instantiated with the input length) so that all
definitions are structurally recursive and evaluate inside the kernel.
-/

namespace MedQ

abbrev Str := List Char

/-- The whitespace characters removed by JavaScript `String.prototype.trim`
(restricted to the ASCII range; the bodies manipulated here only ever gain or
lose ordinary spaces and line breaks at their ends). -/
def isWS (c : Char) : Bool :=
  c = ' ' || c = '\t' || c = '\n' || c = '\r' || c = '\x0b' || c = '\x0c'

/-- JS `String.prototype.trim`: drop whitespace from both ends. -/
def trim (l : Str) : Str :=
  ((l.dropWhile isWS).reverse.dropWhile isWS).reverse

/-- Split a string at the first occurrence of `stop`: returns the (possibly
empty) prefix before `stop` and the remainder after it, or `none` when `stop`
does not occur.  This is how a regex fragment `[^x]*x` consumes input. -/
def splitAtChar (stop : Char) : Str → Option (Str × Str)
  | [] => none
  | c :: cs =>
    if c = stop then some ([], cs)
    else
      match splitAtChar stop cs with
      | some (p, r) => some (c :: p, r)
      | none => none

theorem splitAtChar_eq_append {stop : Char} :
    ∀ {l p r : Str}, splitAtChar stop l = some (p, r) →
      l = p ++ stop :: r ∧ stop ∉ p := by
  intro l
  induction l with
  | nil => intro p r h; simp [splitAtChar] at h
  | cons c cs ih =>
    intro p r h
    by_cases hc : c = stop
    · simp [splitAtChar, hc] at h
      obtain ⟨hp, hr⟩ := h
      subst hp; subst hr; subst hc
      simp
    · simp only [splitAtChar, if_neg hc] at h
      cases hsp : splitAtChar stop cs with
      | none => rw [hsp] at h; simp at h
      | some pr =>
        obtain ⟨p', r'⟩ := pr
        rw [hsp] at h
        simp at h
        obtain ⟨hp, hr⟩ := h
        obtain ⟨hcs, hnotin⟩ := ih hsp
        subst hp; subst hr
        constructor
        · simp [hcs]
        · simp [hnotin]
          exact fun h => hc h.symm

theorem splitAtChar_append {stop : Char} :
    ∀ {p : Str} (r : Str), stop ∉ p → splitAtChar stop (p ++ stop :: r) = some (p, r) := by
  intro p
  induction p with
  | nil => intro r _; simp [splitAtChar]
  | cons c cs ih =>
    intro r hnot
    have hc : ¬ c = stop := by
      intro h; exact hnot (by simp [h])
    have hcs : stop ∉ cs := fun h => hnot (by simp [h])
    simp [splitAtChar, if_neg hc, ih r hcs]

theorem splitAtChar_none {stop : Char} :
    ∀ {l : Str}, stop ∉ l → splitAtChar stop l = none := by
  intro l
  induction l with
  | nil => intro _; rfl
  | cons c cs ih =>
    intro hnot
    have hc : ¬ c = stop := fun h => hnot (by simp [h])
    have hcs : stop ∉ cs := fun h => hnot (by simp [h])
    simp [splitAtChar, if_neg hc, ih hcs]

/-- Boolean test that `p` is a prefix of `l`. -/
def startsWith : Str → Str → Bool
  | [], _ => true
  | _ :: _, [] => false
  | p :: ps, c :: cs => if p = c then startsWith ps cs else false

theorem startsWith_append : ∀ (p r : Str), startsWith p (p ++ r) = true := by
  intro p
  induction p with
  | nil => intro r; rfl
  | cons c cs ih => intro r; simp [startsWith, ih r]

theorem startsWith_eq_append :
    ∀ {p l : Str}, startsWith p l = true → l = p ++ l.drop p.length := by
  intro p
  induction p with
  | nil => intro l _; simp
  | cons c cs ih =>
    intro l h
    cases l with
    | nil => simp [startsWith] at h
    | cons d ds =>
      simp only [startsWith] at h
      by_cases hcd : c = d
      · rw [if_pos hcd] at h
        have := ih h
        simp [hcd, List.drop]
        exact this
      · rw [if_neg hcd] at h; exact absurd h (by simp)

/-- The literal header of the placeholder format: the characters of `[IMAGE:`. -/
def tokenHeader : Str := ['[', 'I', 'M', 'A', 'G', 'E', ':']

/-- The rendered current-format placeholder token `[IMAGE:<id>]`. -/
def tokenStr (id : Str) : Str := tokenHeader ++ id ++ [']']

/-- One attempted match of the regex `\[IMAGE:([^\]]+)\]` at the head of the
input: the header must be present literally, followed by at least one
non-`]` character (the captured id) and the closing `]`.  Returns the id and
the input remaining after the match. -/
def matchTokenAt (l : Str) : Option (Str × Str) :=
  if startsWith tokenHeader l then
    match splitAtChar ']' (l.drop 7) with
    | some (id, r) => if id.isEmpty then none else some (id, r)
    | none => none
  else none

theorem matchTokenAt_some :
    ∀ {l id rest : Str}, matchTokenAt l = some (id, rest) →
      l = tokenStr id ++ rest ∧ id ≠ [] ∧ ']' ∉ id := by
  intro l id rest h
  unfold matchTokenAt at h
  by_cases hsw : startsWith tokenHeader l
  · rw [if_pos hsw] at h
    cases hsp : splitAtChar ']' (l.drop 7) with
    | none => rw [hsp] at h; simp at h
    | some pr =>
      obtain ⟨id', r'⟩ := pr
      rw [hsp] at h
      by_cases hemp : id'.isEmpty
      · simp [hemp] at h
      · simp [hemp] at h
        obtain ⟨hid, hr⟩ := h
        subst hid; subst hr
        obtain ⟨hdrop, hnot⟩ := splitAtChar_eq_append hsp
        have hl : l = tokenHeader ++ l.drop 7 := startsWith_eq_append hsw
        refine ⟨?_, ?_, hnot⟩
        · rw [tokenStr]
          conv_lhs => rw [hl]
          rw [hdrop]
          simp
        · intro hnil
          rw [hnil] at hemp
          exact hemp rfl
  · rw [if_neg hsw] at h; simp at h

theorem matchTokenAt_token :
    ∀ {id : Str} (rest : Str), id ≠ [] → ']' ∉ id →
      matchTokenAt (tokenStr id ++ rest) = some (id, rest) := by
  intro id rest hne hnot
  unfold matchTokenAt
  have h1 : startsWith tokenHeader (tokenStr id ++ rest) = true := by
    rw [tokenStr]
    have : tokenHeader ++ id ++ [']'] ++ rest = tokenHeader ++ (id ++ ']' :: rest) := by
      simp
    rw [this]
    exact startsWith_append _ _
  rw [if_pos h1]
  have h2 : (tokenStr id ++ rest).drop 7 = id ++ ']' :: rest := by
    rw [tokenStr]
    have : tokenHeader ++ id ++ [']'] ++ rest = tokenHeader ++ (id ++ ']' :: rest) := by
      simp
    rw [this]
    have hlen : tokenHeader.length = 7 := rfl
    rw [← hlen, List.drop_left]
  rw [h2, splitAtChar_append rest hnot]
  have : id.isEmpty = false := by
    cases id with
    | nil => exact absurd rfl hne
    | cons a as => rfl
  simp [this]

theorem matchTokenAt_head_ne :
    ∀ {c : Char} {l : Str}, c ≠ '[' → matchTokenAt (c :: l) = none := by
  intro c l hc
  unfold matchTokenAt
  have : startsWith tokenHeader (c :: l) = false := by
    show (if '[' = c then startsWith ['I', 'M', 'A', 'G', 'E', ':'] l else false) = false
    rw [if_neg (fun h => hc h.symm)]
  simp [this]

theorem matchTokenAt_nil : matchTokenAt [] = none := rfl

theorem matchTokenAt_rest_lt :
    ∀ {l id rest : Str}, matchTokenAt l = some (id, rest) →
      rest.length < l.length := by
  intro l id rest h
  obtain ⟨hl, hne, _⟩ := matchTokenAt_some h
  rw [hl, tokenStr]
  simp
  omega

/-- Fuel-indexed scan behind `extractImageIds`: advance one character at a
time, and at each position attempt a token match; on a match record the id
and resume after the match (non-overlapping, as `regex.exec` with `/g`). -/
def extractIdsF : Nat → Str → List Str
  | 0, _ => []
  | _ + 1, [] => []
  | fuel + 1, c :: cs =>
    match matchTokenAt (c :: cs) with
    | some (id, rest) => id :: extractIdsF fuel rest
    | none => extractIdsF fuel cs

/-- Function `extractImageIds` from `QuestionNotes.tsx`: all ids matched by
`/\[IMAGE:([^\]]+)\]/g` over the content, in match order, duplicates kept. -/
def extractImageIds (content : Str) : List Str :=
  extractIdsF content.length content

theorem extractIdsF_fuel :
    ∀ (f₁ f₂ : Nat) (l : Str), l.length ≤ f₁ → l.length ≤ f₂ →
      extractIdsF f₁ l = extractIdsF f₂ l := by
  intro f₁
  induction f₁ with
  | zero =>
    intro f₂ l h₁ _
    have : l = [] := List.eq_nil_of_length_eq_zero (Nat.le_zero.mp h₁)
    subst this
    cases f₂ <;> rfl
  | succ f ih =>
    intro f₂ l h₁ h₂
    cases l with
    | nil => cases f₂ <;> rfl
    | cons c cs =>
      cases f₂ with
      | zero => simp at h₂
      | succ f' =>
        simp only [extractIdsF]
        cases hm : matchTokenAt (c :: cs) with
        | none =>
          have hcs : cs.length ≤ f := by simp at h₁; omega
          have hcs' : cs.length ≤ f' := by simp at h₂; omega
          rw [ih f' cs hcs hcs']
        | some pr =>
          obtain ⟨id, rest⟩ := pr
          have hlt := matchTokenAt_rest_lt hm
          have hr : rest.length ≤ f := by simp at h₁ hlt ⊢; omega
          have hr' : rest.length ≤ f' := by simp at h₂ hlt ⊢; omega
          dsimp only
          rw [ih f' rest hr hr']

theorem extractIdsF_eq :
    ∀ {f : Nat} {l : Str}, l.length ≤ f → extractIdsF f l = extractImageIds l :=
  fun {f} {l} h => extractIdsF_fuel f l.length l h (Nat.le_refl _)

theorem extractImageIds_nil : extractImageIds [] = [] := rfl

theorem extractImageIds_match {l id rest : Str} (h : matchTokenAt l = some (id, rest)) :
    extractImageIds l = id :: extractImageIds rest := by
  cases l with
  | nil => rw [matchTokenAt_nil] at h; exact absurd h (by simp)
  | cons c cs =>
    show extractIdsF (c :: cs).length (c :: cs) = _
    simp only [List.length_cons, extractIdsF, h]
    have hlt := matchTokenAt_rest_lt h
    simp at hlt
    rw [extractIdsF_eq (by omega)]

theorem extractImageIds_nomatch {c : Char} {cs : Str} (h : matchTokenAt (c :: cs) = none) :
    extractImageIds (c :: cs) = extractImageIds cs := by
  show extractIdsF (c :: cs).length (c :: cs) = _
  simp only [List.length_cons, extractIdsF, h]
  exact extractIdsF_eq (by omega)

/-- Fuel-indexed scan behind `removeAllTokens`: delete every token match,
keep every character outside a match (single pass, non-overlapping). -/
def removeAllF : Nat → Str → Str
  | 0, _ => []
  | _ + 1, [] => []
  | fuel + 1, c :: cs =>
    match matchTokenAt (c :: cs) with
    | some (_, rest) => removeAllF fuel rest
    | none => c :: removeAllF fuel cs

/-- Model of `content.replace(/\[IMAGE:[^\]]+\]/g, '')`: remove every well-formed
placeholder token (the empty-URL branch of `cleanOrphanedImages`). -/
def removeAllTokens (content : Str) : Str :=
  removeAllF content.length content

theorem removeAllF_fuel :
    ∀ (f₁ f₂ : Nat) (l : Str), l.length ≤ f₁ → l.length ≤ f₂ →
      removeAllF f₁ l = removeAllF f₂ l := by
  intro f₁
  induction f₁ with
  | zero =>
    intro f₂ l h₁ _
    have : l = [] := List.eq_nil_of_length_eq_zero (Nat.le_zero.mp h₁)
    subst this
    cases f₂ <;> rfl
  | succ f ih =>
    intro f₂ l h₁ h₂
    cases l with
    | nil => cases f₂ <;> rfl
    | cons c cs =>
      cases f₂ with
      | zero => simp at h₂
      | succ f' =>
        simp only [removeAllF]
        cases hm : matchTokenAt (c :: cs) with
        | none =>
          have hcs : cs.length ≤ f := by simp at h₁; omega
          have hcs' : cs.length ≤ f' := by simp at h₂; omega
          dsimp only
          rw [ih f' cs hcs hcs']
        | some pr =>
          obtain ⟨id, rest⟩ := pr
          have hlt := matchTokenAt_rest_lt hm
          have hr : rest.length ≤ f := by simp at h₁ hlt ⊢; omega
          have hr' : rest.length ≤ f' := by simp at h₂ hlt ⊢; omega
          dsimp only
          rw [ih f' rest hr hr']

theorem removeAllF_eq :
    ∀ {f : Nat} {l : Str}, l.length ≤ f → removeAllF f l = removeAllTokens l :=
  fun {f} {l} h => removeAllF_fuel f l.length l h (Nat.le_refl _)

theorem removeAllTokens_match {l id rest : Str} (h : matchTokenAt l = some (id, rest)) :
    removeAllTokens l = removeAllTokens rest := by
  cases l with
  | nil => rw [matchTokenAt_nil] at h; exact absurd h (by simp)
  | cons c cs =>
    show removeAllF (c :: cs).length (c :: cs) = _
    simp only [List.length_cons, removeAllF, h]
    have hlt := matchTokenAt_rest_lt h
    simp at hlt
    exact removeAllF_eq (by omega)

theorem removeAllTokens_nomatch {c : Char} {cs : Str} (h : matchTokenAt (c :: cs) = none) :
    removeAllTokens (c :: cs) = c :: removeAllTokens cs := by
  show removeAllF (c :: cs).length (c :: cs) = _
  simp only [List.length_cons, removeAllF, h]
  rw [removeAllF_eq (by omega)]

/-- Fuel-indexed scan behind `removeSub`: delete every (leftmost,
non-overlapping) occurrence of the literal pattern `pat`, keep everything
else.  Models `String.replace(new RegExp(escaped, 'g'), '')` where the
pattern has every metacharacter escaped, i.e. literal-substring removal. -/
def removeSubF (pat : Str) : Nat → Str → Str
  | 0, _ => []
  | _ + 1, [] => []
  | fuel + 1, c :: cs =>
    if startsWith pat (c :: cs) then removeSubF pat fuel ((c :: cs).drop pat.length)
    else c :: removeSubF pat fuel cs

/-- Remove every occurrence of the literal string `pat` (assumed nonempty)
from `l`, in a single left-to-right pass. -/
def removeSub (pat l : Str) : Str :=
  removeSubF pat l.length l

theorem removeSubF_fuel {pat : Str} (hpat : pat ≠ []) :
    ∀ (f₁ f₂ : Nat) (l : Str), l.length ≤ f₁ → l.length ≤ f₂ →
      removeSubF pat f₁ l = removeSubF pat f₂ l := by
  intro f₁
  induction f₁ with
  | zero =>
    intro f₂ l h₁ _
    have : l = [] := List.eq_nil_of_length_eq_zero (Nat.le_zero.mp h₁)
    subst this
    cases f₂ <;> rfl
  | succ f ih =>
    intro f₂ l h₁ h₂
    cases l with
    | nil => cases f₂ <;> rfl
    | cons c cs =>
      cases f₂ with
      | zero => simp at h₂
      | succ f' =>
        simp only [removeSubF]
        by_cases hsw : startsWith pat (c :: cs)
        · rw [if_pos hsw, if_pos hsw]
          have hplen : 1 ≤ pat.length := by
            cases pat with
            | nil => exact absurd rfl hpat
            | cons a as => simp
          have hdrop : ((c :: cs).drop pat.length).length ≤ f := by
            simp at h₁ ⊢; omega
          have hdrop' : ((c :: cs).drop pat.length).length ≤ f' := by
            simp at h₂ ⊢; omega
          exact ih f' _ hdrop hdrop'
        · rw [if_neg hsw, if_neg hsw]
          have hcs : cs.length ≤ f := by simp at h₁; omega
          have hcs' : cs.length ≤ f' := by simp at h₂; omega
          rw [ih f' cs hcs hcs']

theorem removeSubF_eq {pat : Str} (hpat : pat ≠ []) :
    ∀ {f : Nat} {l : Str}, l.length ≤ f → removeSubF pat f l = removeSub pat l :=
  fun {f} {l} h => removeSubF_fuel hpat f l.length l h (Nat.le_refl _)

theorem removeSub_matchhead {pat rest : Str} (hpat : pat ≠ []) :
    removeSub pat (pat ++ rest) = removeSub pat rest := by
  obtain ⟨a, as, rfl⟩ : ∃ a as, pat = a :: as := by
    cases pat with
    | nil => exact absurd rfl hpat
    | cons a as => exact ⟨a, as, rfl⟩
  show removeSubF (a :: as) (a :: (as ++ rest)).length (a :: (as ++ rest)) = _
  simp only [List.length_cons, removeSubF]
  have hsw : startsWith (a :: as) (a :: (as ++ rest)) = true := startsWith_append _ _
  rw [if_pos hsw]
  have hdrop : (a :: (as ++ rest)).drop (as.length + 1) = rest := by
    show ((a :: as) ++ rest).drop (a :: as).length = rest
    rw [List.drop_left]
  rw [hdrop]
  apply removeSubF_eq hpat
  simp

theorem removeSub_nomatch {pat : Str} {c : Char} {cs : Str}
    (hpat : pat ≠ []) (hsw : startsWith pat (c :: cs) = false) :
    removeSub pat (c :: cs) = c :: removeSub pat cs := by
  show removeSubF pat (c :: cs).length (c :: cs) = _
  simp only [List.length_cons, removeSubF, hsw]
  simp
  rw [removeSubF_eq hpat (by omega)]

theorem removeSub_nil (pat : Str) : removeSub pat [] = [] := rfl

/-- Function `cleanOrphanedImages` from `QuestionNotes.tsx`.  With no available URLs it
removes every placeholder token (and does not trim); otherwise it removes,
for each extracted id whose occurrence index is at least the URL count, every
occurrence of that id's token (the per-id regex is metacharacter-escaped, so
this is literal-substring removal), then trims the result. -/
def cleanOrphanedImages (content : Str) (availableImageUrls : List Str) : Str :=
  if availableImageUrls.length = 0 then
    removeAllTokens content
  else
    let contentImageIds := extractImageIds content
    let cleaned := contentImageIds.enum.foldl
      (fun acc p =>
        if availableImageUrls.length ≤ p.1 then removeSub (tokenStr p.2) acc else acc)
      content
    trim cleaned

theorem sanity_extract_two :
    extractImageIds "[IMAGE:a][IMAGE:b]".data = ["a".data, "b".data] := by decide

theorem sanity_clean_positional :
    cleanOrphanedImages "[IMAGE:a][IMAGE:b]".data ["u1".data] = "[IMAGE:a]".data := by decide

theorem sanity_clean_empty_no_trim :
    cleanOrphanedImages "x [IMAGE:a]".data [] = "x ".data := by decide

theorem sanity_clean_seam :
    cleanOrphanedImages "[IMA[IMAGE:x]GE:y]".data [] = "[IMAGE:y]".data := by decide

theorem sanity_extract_greedy :
    extractImageIds "[IMAGE:a[IMAGE:b]".data = ["a[IMAGE:b".data] := by decide

theorem sanity_extract_malformed :
    extractImageIds "[IMAGE [broken]x".data = [] := by decide

/-- Structure `ImageData` from `rich-text-input.tsx`. -/
structure ImageData where
  id : Str
  url : Str
  description : Str
deriving DecidableEq

/-- The record serialized into localStorage under `notes_<userId>_<questionId>`
(the `lastSavedAt` timestamp is not modelled). -/
structure CacheRecord where
  value : Str
  images : List ImageData
deriving DecidableEq

/-- The remote store's answer to `GET /api/user-question-state`. -/
structure ServerData where
  notes : Str
  notesImageUrls : List Str
deriving DecidableEq

/-- The `SaveState` union type of `QuestionNotes.tsx`. -/
inductive SaveState
  | idle | saving | saved | error | loading
deriving DecidableEq

/-- A scheduled debounced remote write: its delay and the payload captured by
the `setTimeout` closure. -/
structure PendingSync where
  delayMs : Nat
  content : Str
  imageUrls : List Str
deriving DecidableEq

/-- The component state of `QuestionNotes`: React state, the mutable refs,
the two debounce timers, and the localStorage slot for the current key.
`localWriteCount` / `remoteWriteCount` count completed localStorage writes and
attempted remote POSTs, to state the coalescing claims. -/
structure NState where
  userPresent : Bool
  initialLoaded : Bool
  value : Str
  images : List ImageData
  saveState : SaveState
  lastSavedValue : Str
  lastSavedImages : List ImageData
  cache : Option CacheRecord
  autosaveTimer : Option Nat
  syncTimer : Option PendingSync
  localWriteCount : Nat
  remoteWriteCount : Nat
deriving DecidableEq

/-- The `imageData` reconstruction inside `syncWithServer`: pair each id with
`serverImageUrls[index] || ''` and keep only records with a nonempty url. -/
def serverImageData (ids : List Str) (urls : List Str) : List ImageData :=
  (ids.enum.map (fun p => ImageData.mk p.2 (urls.getD p.1 []) [])).filter
    (fun img => !img.url.isEmpty)

/-- The `shouldUseServerData` decision inside `syncWithServer`: use the server
data unless localStorage holds a parseable record whose `value` equals the
server notes and whose image-url list equals the server url list.  `none`
covers both an absent localStorage entry and an unparseable one. -/
def shouldUseServerData (localData : Option CacheRecord) (sd : ServerData) : Bool :=
  match localData with
  | none => true
  | some parsed =>
    if parsed.value = sd.notes ∧ parsed.images.map (fun img => img.url) = sd.notesImageUrls
    then false else true

/-- The state application performed by `syncWithServer` once the fetch has
resolved (and was not cancelled): when the server data should be used and is
non-empty, the orphan-cleaned notes and the positionally reconstructed image
records overwrite the in-memory state, the last-saved refs and localStorage;
otherwise everything is left as it was.  (The transient `loading`/`idle`
indicator transitions and `initialLoaded` are not part of this application.) -/
def syncWithServerApply (sd : ServerData) (st : NState) : NState :=
  if shouldUseServerData st.cache sd
      && (!sd.notes.isEmpty || !sd.notesImageUrls.isEmpty) then
    let cleanedNotes := cleanOrphanedImages sd.notes sd.notesImageUrls
    let imageData := serverImageData (extractImageIds cleanedNotes) sd.notesImageUrls
    { st with
      value := cleanedNotes
      images := imageData
      lastSavedValue := cleanedNotes
      lastSavedImages := imageData
      cache := some ⟨cleanedNotes, imageData⟩ }
  else st

/-- Function `save` from `QuestionNotes.tsx`.  `localOk` is the outcome of the
synchronous `localStorage.setItem` (which can throw).  Without a user it is
an early-returning no-op; on a successful local write it stores the cleaned
content, marks `saved`, updates the last-saved refs and (re)schedules the
debounced 2000ms remote sync with the cleaned payload; on a failed local
write it only transitions to `error` (the transient `saving` state and the
1200ms revert of `saved` to `idle` are not modelled). -/
def save (localOk : Bool) (st : NState) : NState :=
  if !st.userPresent then st
  else
    let imageUrls := st.images.map (fun img => img.url)
    let cleanedContent := cleanOrphanedImages st.value imageUrls
    if localOk then
      { st with
        cache := some ⟨cleanedContent, st.images⟩
        localWriteCount := st.localWriteCount + 1
        value := cleanedContent
        lastSavedValue := cleanedContent
        lastSavedImages := st.images
        saveState := SaveState.saved
        syncTimer := some ⟨2000, cleanedContent, imageUrls⟩ }
    else
      { st with saveState := SaveState.error }

/-- The expiry of the `syncDebounceRef` timer: `syncToServer` runs with the
captured payload.  Its success or failure (`remoteOk`) only governs a toast
and the returned boolean; it touches neither the save state nor the cache,
and without a user it returns before POSTing. -/
def fireSyncTimer (remoteOk : Bool) (st : NState) : NState :=
  match st.syncTimer with
  | none => st
  | some _ =>
    { st with
      syncTimer := none
      remoteWriteCount := st.remoteWriteCount + (if st.userPresent then 1 else 0) }

/-- The `hasChanges` memo: content differs from the last-saved snapshot. -/
def hasChangesB (st : NState) : Bool :=
  if st.value = st.lastSavedValue ∧ st.images = st.lastSavedImages then false else true

/-- One content change observed by the autosave effect.  A re-run of the
effect first clears any pending autosave timer (the previous run's cleanup,
and the `clearTimeout` at the top of the body), then schedules a 500ms
autosave only when the initial load has finished, the content differs from
the last-saved snapshot and a user is present. -/
def changeValue (v : Str) (st : NState) : NState :=
  let st' := { st with value := v, autosaveTimer := none }
  if st'.initialLoaded && hasChangesB st' && st'.userPresent then
    { st' with autosaveTimer := some 500 }
  else st'

/-- The expiry of the `debounceRef` timer: `save(true)` runs against the
current state. -/
def fireAutosave (localOk : Bool) (st : NState) : NState :=
  match st.autosaveTimer with
  | none => st
  | some _ => save localOk { st with autosaveTimer := none }

/-- The world of the load/sync effect: `gen` numbers the effect invocations
(one per (questionId, userId) key), and `cancelled g` is the closure flag of
invocation `g`, set by that invocation's cleanup. -/
structure HydWorld where
  gen : Nat
  cancelled : Nat → Bool
  st : NState

/-- The synchronous state reset at the top of the load/sync effect body. -/
def resetOnKeyChange (st : NState) : NState :=
  { st with
    value := []
    images := []
    initialLoaded := false
    saveState := SaveState.idle
    lastSavedValue := []
    lastSavedImages := [] }

/-- A re-invocation of the load/sync effect (the active question or user
changed): the previous invocation's cleanup runs (its `cancelled` flag is
set, both debounce timers are cleared), then the new invocation resets the
component state and starts its own fetch under generation `gen + 1`. -/
def effectRestart (w : HydWorld) : HydWorld :=
  { gen := w.gen + 1
    cancelled := fun g => if g = w.gen then true else w.cancelled g
    st := { resetOnKeyChange w.st with autosaveTimer := none, syncTimer := none } }

/-- The resolution of the remote fetch started by effect invocation `g`:
the result is applied only if that invocation's `cancelled` flag is unset. -/
def fetchResolve (w : HydWorld) (g : Nat) (sd : ServerData) : HydWorld :=
  if w.cancelled g then w
  else { w with st := syncWithServerApply sd w.st }

/-- One attempted match of the legacy regex `\[IMAGE:([^|]+)\|([^\]]+)\]` at
the head of the input: the literal header, at least one non-`|` character
(the url field, which may contain brackets), a `|`, at least one non-`]`
character (the description field, which may contain further `|`), and the
closing `]`.  Each negated class is bounded by the very literal that follows
it, so the match is forced to the first `|` and the first `]` after it. -/
def legacyMatchAt (l : Str) : Option (Str × Str × Str) :=
  if startsWith tokenHeader l then
    match splitAtChar '|' (l.drop 7) with
    | some (u, rest2) =>
      if u.isEmpty then none
      else
        match splitAtChar ']' rest2 with
        | some (d, rest3) => if d.isEmpty then none else some (u, d, rest3)
        | none => none
    | none => none
  else none

/-- Model of `legacyRegex.test(value)`: does a legacy token match anywhere?  (The
leftmost-match scan finds a match exactly when some suffix matches.) -/
def hasLegacy (l : Str) : Bool :=
  l.tails.any (fun t => (legacyMatchAt t).isSome)

/-- Fuel-indexed transcription of `value.replace(legacyRegex, cb)` from the
legacy-migration effect of `rich-text-input.tsx`: every legacy match is
replaced by a current-format token, reusing the id of an existing registry
record with the same (trimmed) url, or appending a record with a freshly
generated id (`fresh n` is the n-th id generated during this pass). -/
def legacyReplaceF (fresh : Nat → Str) :
    Nat → Str → List ImageData → Nat → Str × List ImageData × Nat
  | 0, _, imgs, n => ([], imgs, n)
  | _ + 1, [], imgs, n => ([], imgs, n)
  | fuel + 1, c :: cs, imgs, n =>
    match legacyMatchAt (c :: cs) with
    | some (u, d, rest) =>
      let url := trim u
      let description := trim d
      match imgs.find? (fun img => decide (img.url = url)) with
      | some existing =>
        let r := legacyReplaceF fresh fuel rest imgs n
        (tokenStr existing.id ++ r.1, r.2)
      | none =>
        let newImg : ImageData := ⟨fresh n, url, description⟩
        let r := legacyReplaceF fresh fuel rest (imgs ++ [newImg]) (n + 1)
        (tokenStr newImg.id ++ r.1, r.2)
    | none =>
      let r := legacyReplaceF fresh fuel cs imgs n
      (c :: r.1, r.2)

/-- The legacy-migration effect of `rich-text-input.tsx` as a function of the
body and registry: no legacy match means an early return; otherwise the body
is rewritten, and state is updated only when the rewrite changed the body
(`working !== value`). -/
def migrateLegacy (fresh : Nat → Str) (b : Str) (imgs : List ImageData) :
    Str × List ImageData :=
  if hasLegacy b then
    let r := legacyReplaceF fresh b.length b imgs 0
    if r.1 = b then (b, imgs) else (r.1, r.2.1)
  else (b, imgs)

/-- A concrete deterministic id supply for counterexamples and witnesses. -/
def freshIds : Nat → Str :=
  fun n => if n = 0 then "f0".data else "f1".data

theorem sanity_migrate_simple :
    migrateLegacy freshIds "[IMAGE:u|d]".data []
      = ("[IMAGE:f0]".data, [⟨"f0".data, "u".data, "d".data⟩]) := by decide

theorem sanity_migrate_seam :
    migrateLegacy freshIds "[IMAGE:[IMAGE:u|d]x|y]".data []
      = ("[IMAGE:f0]x|y]".data, [⟨"f0".data, "[IMAGE:u".data, "d".data⟩]) := by decide

/-!
### Segment bodies

To reason about the scanners on realistic bodies (plain text interleaved with
placeholder tokens), bodies are presented as segment lists.  A segment list is
*clean* when plain text contains no `[` and ids are nonempty and bracket-free;
on clean bodies the regex scans recognise exactly the intended tokens.
-/

/-- A body fragment: plain text or a placeholder token. -/
inductive Seg
  | text : Str → Seg
  | tok : Str → Seg
deriving DecidableEq

def renderSeg : Seg → Str
  | Seg.text s => s
  | Seg.tok id => tokenStr id

/-- Flatten a segment list back into the raw body string. -/
def render : List Seg → Str
  | [] => []
  | s :: r => renderSeg s ++ render r

/-- The token ids of a segment list, in order, duplicates kept. -/
def segIds : List Seg → List Str
  | [] => []
  | Seg.text _ :: r => segIds r
  | Seg.tok id :: r => id :: segIds r

def isTextSeg : Seg → Bool
  | Seg.text _ => true
  | Seg.tok _ => false

/-- A clean segment: text without `[`, token ids nonempty and bracket-free. -/
def CleanSeg : Seg → Prop
  | Seg.text s => '[' ∉ s
  | Seg.tok id => id ≠ [] ∧ '[' ∉ id ∧ ']' ∉ id

instance : DecidablePred CleanSeg := fun s =>
  match s with
  | Seg.text t => inferInstanceAs (Decidable ('[' ∉ t))
  | Seg.tok id => inferInstanceAs (Decidable (id ≠ [] ∧ '[' ∉ id ∧ ']' ∉ id))

def CleanSegs (segs : List Seg) : Prop := ∀ s ∈ segs, CleanSeg s

instance : DecidablePred CleanSegs := fun segs =>
  inferInstanceAs (Decidable (∀ s ∈ segs, CleanSeg s))

theorem cleanSegs_tail {s : Seg} {r : List Seg} (h : CleanSegs (s :: r)) : CleanSegs r :=
  fun x hx => h x (List.mem_cons_of_mem _ hx)

theorem segIds_clean {segs : List Seg} (h : CleanSegs segs) :
    ∀ id ∈ segIds segs, id ≠ [] ∧ '[' ∉ id ∧ ']' ∉ id := by
  induction segs with
  | nil => intro id hid; exact absurd hid (by simp [segIds])
  | cons s r ih =>
    intro id hid
    cases s with
    | text t => exact ih (cleanSegs_tail h) id hid
    | tok x =>
      rw [segIds] at hid
      rcases List.mem_cons.mp hid with h1 | h2
      · subst h1; exact h (Seg.tok id) (List.mem_cons_self _ _)
      · exact ih (cleanSegs_tail h) id h2

theorem extract_skip_nolb {s : Str} (hs : '[' ∉ s) (t : Str) :
    extractImageIds (s ++ t) = extractImageIds t := by
  induction s with
  | nil => simp
  | cons c cs ih =>
    have hc : c ≠ '[' := fun h => hs (by simp [h])
    have hcs : '[' ∉ cs := fun h => hs (by simp [h])
    rw [List.cons_append, extractImageIds_nomatch (matchTokenAt_head_ne hc), ih hcs]

theorem extract_token_cons {id : Str} (hne : id ≠ []) (hrb : ']' ∉ id) (t : Str) :
    extractImageIds (tokenStr id ++ t) = id :: extractImageIds t :=
  extractImageIds_match (matchTokenAt_token t hne hrb)

/-- On a clean body the id scan recognises exactly the token segments. -/
theorem extract_render {segs : List Seg} (h : CleanSegs segs) :
    extractImageIds (render segs) = segIds segs := by
  induction segs with
  | nil => rfl
  | cons s r ih =>
    have hr := cleanSegs_tail h
    cases s with
    | text t =>
      have hs : '[' ∉ t := h (Seg.text t) (List.mem_cons_self _ _)
      rw [render, renderSeg, segIds, extract_skip_nolb hs, ih hr]
    | tok id =>
      obtain ⟨hne, _, hrb⟩ : CleanSeg (Seg.tok id) := h _ (List.mem_cons_self _ _)
      rw [render, renderSeg, segIds, extract_token_cons hne hrb, ih hr]

theorem removeAll_skip_nolb {s : Str} (hs : '[' ∉ s) (t : Str) :
    removeAllTokens (s ++ t) = s ++ removeAllTokens t := by
  induction s with
  | nil => simp
  | cons c cs ih =>
    have hc : c ≠ '[' := fun h => hs (by simp [h])
    have hcs : '[' ∉ cs := fun h => hs (by simp [h])
    rw [List.cons_append, removeAllTokens_nomatch (matchTokenAt_head_ne hc), ih hcs,
      List.cons_append]

theorem removeAll_token_cons {id : Str} (hne : id ≠ []) (hrb : ']' ∉ id) (t : Str) :
    removeAllTokens (tokenStr id ++ t) = removeAllTokens t :=
  removeAllTokens_match (matchTokenAt_token t hne hrb)

/-- On a clean body, removing every token keeps exactly the text segments. -/
theorem removeAll_render {segs : List Seg} (h : CleanSegs segs) :
    removeAllTokens (render segs) = render (segs.filter isTextSeg) := by
  induction segs with
  | nil => rfl
  | cons s r ih =>
    have hr := cleanSegs_tail h
    cases s with
    | text t =>
      have hs : '[' ∉ t := h (Seg.text t) (List.mem_cons_self _ _)
      rw [render, renderSeg, removeAll_skip_nolb hs, ih hr]
      rw [List.filter_cons_of_pos (by rfl), render, renderSeg]
    | tok id =>
      obtain ⟨hne, _, hrb⟩ : CleanSeg (Seg.tok id) := h _ (List.mem_cons_self _ _)
      rw [render, renderSeg, removeAll_token_cons hne hrb, ih hr]
      rw [List.filter_cons_of_neg (by simp [isTextSeg])]

theorem startsWith_cons_ne {p c : Char} {ps cs : Str} (h : p ≠ c) :
    startsWith (p :: ps) (c :: cs) = false := by
  simp [startsWith, if_neg h]

theorem tokenStr_ne_nil (x : Str) : tokenStr x ≠ [] := by
  simp [tokenStr, tokenHeader]

theorem startsWith_append_left : ∀ (p a b : Str), startsWith (p ++ a) (p ++ b) = startsWith a b := by
  intro p
  induction p with
  | nil => intro a b; rfl
  | cons c cs ih => intro a b; simp [startsWith, ih]

theorem startsWith_sep_ne :
    ∀ {x id : Str}, ']' ∉ x → ']' ∉ id → x ≠ id →
      ∀ (t : Str), startsWith (x ++ [']']) (id ++ ']' :: t) = false := by
  intro x
  induction x with
  | nil =>
    intro id _ hid hne t
    cases id with
    | nil => exact absurd rfl hne
    | cons c cid =>
      have hc : ']' ≠ c := fun h => hid (by simp [← h])
      exact startsWith_cons_ne hc
  | cons a xs ih =>
    intro id hx hid hne t
    cases id with
    | nil =>
      have ha : a ≠ ']' := fun h => hx (by simp [h])
      exact startsWith_cons_ne ha
    | cons c cid =>
      by_cases hac : a = c
      · subst hac
        have hxs : ']' ∉ xs := fun h => hx (by simp [h])
        have hcid : ']' ∉ cid := fun h => hid (by simp [h])
        have hne' : xs ≠ cid := fun h => hne (by rw [h])
        show startsWith (a :: (xs ++ [']'])) (a :: (cid ++ ']' :: t)) = false
        simp only [startsWith, if_pos rfl]
        exact ih hxs hcid hne' t
      · exact startsWith_cons_ne hac

theorem removeSub_skip_nolb {x : Str} {s : Str} (hs : '[' ∉ s) (t : Str) :
    removeSub (tokenStr x) (s ++ t) = s ++ removeSub (tokenStr x) t := by
  induction s with
  | nil => simp
  | cons c cs ih =>
    have hc : c ≠ '[' := fun h => hs (by simp [h])
    have hcs : '[' ∉ cs := fun h => hs (by simp [h])
    have hsw : startsWith (tokenStr x) (c :: (cs ++ t)) = false := by
      show startsWith ('[' :: (['I', 'M', 'A', 'G', 'E', ':'] ++ x ++ [']'])) (c :: (cs ++ t)) = false
      exact startsWith_cons_ne (fun h => hc h.symm)
    rw [List.cons_append, removeSub_nomatch (tokenStr_ne_nil x) hsw, ih hcs, List.cons_append]

theorem removeSub_token_ne {x id : Str} (hxrb : ']' ∉ x)
    (hidlb : '[' ∉ id) (hidrb : ']' ∉ id) (hne : id ≠ x) (t : Str) :
    removeSub (tokenStr x) (tokenStr id ++ t) = tokenStr id ++ removeSub (tokenStr x) t := by
  have h0 : startsWith (tokenStr x) (tokenStr id ++ t) = false := by
    have hx : tokenStr x = tokenHeader ++ (x ++ [']']) := by simp [tokenStr]
    have hid : tokenStr id ++ t = tokenHeader ++ (id ++ ']' :: t) := by simp [tokenStr]
    rw [hx, hid, startsWith_append_left]
    exact startsWith_sep_ne hxrb hidrb (fun h => hne h.symm) t
  have hblock : '[' ∉ (['I', 'M', 'A', 'G', 'E', ':'] ++ id ++ [']']) := by
    intro hmem
    rcases List.mem_append.mp hmem with h1 | h2
    · rcases List.mem_append.mp h1 with h3 | h4
      · simp at h3
      · exact hidlb h4
    · simp at h2
  have hshape : tokenStr id ++ t = '[' :: ((['I', 'M', 'A', 'G', 'E', ':'] ++ id ++ [']']) ++ t) := by
    simp [tokenStr, tokenHeader]
  rw [hshape] at h0 ⊢
  rw [removeSub_nomatch (tokenStr_ne_nil x) h0, removeSub_skip_nolb hblock]
  simp [tokenStr, tokenHeader]

/-- Drop every token segment carrying id `x`. -/
def dropTok (x : Str) (segs : List Seg) : List Seg :=
  segs.filter (fun s =>
    match s with
    | Seg.tok id => decide (id ≠ x)
    | Seg.text _ => true)

theorem cleanSegs_filter {segs : List Seg} (h : CleanSegs segs) (p : Seg → Bool) :
    CleanSegs (segs.filter p) :=
  fun s hs => h s (List.mem_of_mem_filter hs)

theorem dropTok_nil (x : Str) : dropTok x [] = [] := rfl

theorem dropTok_text (x t : Str) (r : List Seg) :
    dropTok x (Seg.text t :: r) = Seg.text t :: dropTok x r := by
  simp [dropTok, List.filter_cons]

theorem dropTok_tok_eq (x : Str) (r : List Seg) :
    dropTok x (Seg.tok x :: r) = dropTok x r := by
  simp [dropTok, List.filter_cons]

theorem dropTok_tok_ne {x id : Str} (h : id ≠ x) (r : List Seg) :
    dropTok x (Seg.tok id :: r) = Seg.tok id :: dropTok x r := by
  simp [dropTok, List.filter_cons, h]

/-- On a clean body, the per-id literal removal drops exactly the token
segments with that id. -/
theorem removeSub_render {x : Str} (hxlb : '[' ∉ x) (hxrb : ']' ∉ x) :
    ∀ {segs : List Seg}, CleanSegs segs →
      removeSub (tokenStr x) (render segs) = render (dropTok x segs) := by
  intro segs
  induction segs with
  | nil => intro _; rfl
  | cons s r ih =>
    intro h
    have hr := cleanSegs_tail h
    cases s with
    | text t =>
      have hs : '[' ∉ t := h (Seg.text t) (List.mem_cons_self _ _)
      rw [render, renderSeg, removeSub_skip_nolb hs, ih hr, dropTok_text]
      rw [render, renderSeg]
    | tok id =>
      obtain ⟨hne, hlb, hrb⟩ : CleanSeg (Seg.tok id) := h _ (List.mem_cons_self _ _)
      by_cases hid : id = x
      · subst hid
        rw [render, renderSeg, removeSub_matchhead (tokenStr_ne_nil id), ih hr,
          dropTok_tok_eq]
      · rw [render, renderSeg, removeSub_token_ne hxrb hlb hrb hid, ih hr,
          dropTok_tok_ne hid]
        rw [render, renderSeg]

theorem fold_removeSub_render :
    ∀ (xs : List Str) {segs : List Seg}, CleanSegs segs →
      (∀ x ∈ xs, x ≠ [] ∧ '[' ∉ x ∧ ']' ∉ x) →
      xs.foldl (fun acc x => removeSub (tokenStr x) acc) (render segs)
        = render (xs.foldl (fun sg x => dropTok x sg) segs) := by
  intro xs
  induction xs with
  | nil => intro segs _ _; rfl
  | cons x xs' ih =>
    intro segs h hxs
    obtain ⟨hxe, hxlb, hxrb⟩ := hxs x (List.mem_cons_self _ _)
    simp only [List.foldl_cons]
    rw [removeSub_render hxlb hxrb h]
    exact ih (cleanSegs_filter h _) (fun y hy => hxs y (List.mem_cons_of_mem _ hy))

/-- The filter keeping text segments and token segments whose id avoids `xs`. -/
def keepPred (xs : List Str) : Seg → Bool := fun s =>
  match s with
  | Seg.tok id => decide (id ∉ xs)
  | Seg.text _ => true

theorem foldl_dropTok_eq_filter :
    ∀ (xs : List Str) (segs : List Seg),
      xs.foldl (fun sg x => dropTok x sg) segs = segs.filter (keepPred xs) := by
  intro xs
  induction xs with
  | nil =>
    intro segs
    show segs = _
    rw [List.filter_eq_self.mpr]
    intro s _
    cases s <;> simp [keepPred]
  | cons x xs' ih =>
    intro segs
    simp only [List.foldl_cons]
    rw [ih (dropTok x segs)]
    rw [dropTok, List.filter_filter]
    apply List.filter_congr
    intro s _
    cases s with
    | text t => rfl
    | tok id =>
      show (keepPred xs' (Seg.tok id) && decide (id ≠ x)) = keepPred (x :: xs') (Seg.tok id)
      by_cases h1 : id ∈ xs' <;> by_cases h2 : id = x <;>
        simp [keepPred, h1, h2, List.mem_cons]

/-- Keep the first `n` token segments, drop every later one. -/
def keepFirstToks : Nat → List Seg → List Seg
  | _, [] => []
  | n, Seg.text s :: r => Seg.text s :: keepFirstToks n r
  | 0, Seg.tok _ :: r => keepFirstToks 0 r
  | n + 1, Seg.tok id :: r => Seg.tok id :: keepFirstToks n r

theorem keepFirstToks_zero : ∀ (segs : List Seg), keepFirstToks 0 segs = segs.filter isTextSeg := by
  intro segs
  induction segs with
  | nil => rfl
  | cons s r ih =>
    cases s with
    | text t => rw [keepFirstToks, ih, List.filter_cons_of_pos (by rfl)]
    | tok id => rw [keepFirstToks, ih, List.filter_cons_of_neg (by simp [isTextSeg])]

theorem filter_keepPred_all {xs : List Str} :
    ∀ (segs : List Seg), (∀ id ∈ segIds segs, id ∈ xs) →
      segs.filter (keepPred xs) = segs.filter isTextSeg := by
  intro segs
  induction segs with
  | nil => intro _; rfl
  | cons s r ih =>
    intro hall
    cases s with
    | text t =>
      rw [List.filter_cons_of_pos (by rfl), List.filter_cons_of_pos (by rfl),
        ih (fun id hid => hall id (by rw [segIds]; exact hid))]
    | tok id =>
      have hid : id ∈ xs := hall id (by rw [segIds]; exact List.mem_cons_self _ _)
      rw [List.filter_cons_of_neg (by simp [keepPred, hid]),
        List.filter_cons_of_neg (by simp [isTextSeg]),
        ih (fun i hi => hall i (by rw [segIds]; exact List.mem_cons_of_mem _ hi))]

theorem filter_drop_eq_keepFirst :
    ∀ (segs : List Seg) (n : Nat), (segIds segs).Nodup →
      segs.filter (keepPred ((segIds segs).drop n)) = keepFirstToks n segs := by
  intro segs
  induction segs with
  | nil => intro n _; cases n <;> rfl
  | cons s r ih =>
    intro n hnd
    cases s with
    | text t =>
      rw [List.filter_cons_of_pos (by rfl), keepFirstToks]
      rw [show segIds (Seg.text t :: r) = segIds r from rfl]
      rw [ih n (by rwa [show segIds (Seg.text t :: r) = segIds r from rfl] at hnd)]
    | tok id =>
      have hids : segIds (Seg.tok id :: r) = id :: segIds r := rfl
      rw [hids] at hnd ⊢
      have hnotin : id ∉ segIds r := (List.nodup_cons.mp hnd).1
      have hndr : (segIds r).Nodup := (List.nodup_cons.mp hnd).2
      cases n with
      | zero =>
        rw [List.drop_zero]
        rw [List.filter_cons_of_neg (by simp [keepPred])]
        rw [keepFirstToks, keepFirstToks_zero]
        apply filter_keepPred_all
        intro i hi
        exact List.mem_cons_of_mem _ hi
      | succ n' =>
        rw [List.drop_succ_cons]
        have hkeep : keepPred ((segIds r).drop n') (Seg.tok id) = true := by
          simp only [keepPred, decide_eq_true_eq]
          intro hmem
          exact hnotin (List.drop_subset _ _ hmem)
        rw [List.filter_cons_of_pos hkeep, keepFirstToks, ih n' hndr]

theorem foldl_guard_eq_filter {α : Type} (f : Str → α → α) (n : Nat) :
    ∀ (pairs : List (Nat × Str)) (b : α),
      pairs.foldl (fun acc p => if n ≤ p.1 then f p.2 acc else acc) b
        = ((pairs.filter (fun p => decide (n ≤ p.1))).map Prod.snd).foldl
            (fun acc x => f x acc) b := by
  intro pairs
  induction pairs with
  | nil => intro b; rfl
  | cons p ps ih =>
    intro b
    by_cases h : n ≤ p.1
    · rw [List.foldl_cons, if_pos h, List.filter_cons_of_pos (by simpa using h),
        List.map_cons, List.foldl_cons, ih]
    · rw [List.foldl_cons, if_neg h, List.filter_cons_of_neg (by simpa using h), ih]

theorem enumFrom_filter_map_drop (n : Nat) :
    ∀ (l : List Str) (k : Nat),
      ((l.enumFrom k).filter (fun p => decide (n ≤ p.1))).map Prod.snd = l.drop (n - k) := by
  intro l
  induction l with
  | nil => intro k; simp
  | cons a l' ih =>
    intro k
    rw [List.enumFrom]
    by_cases h : n ≤ k
    · rw [List.filter_cons_of_pos (by simpa using h), List.map_cons, ih (k + 1)]
      have h1 : n - k = 0 := by omega
      have h2 : n - (k + 1) = 0 := by omega
      rw [h1, h2, List.drop_zero, List.drop_zero]
    · rw [List.filter_cons_of_neg (by simpa using h), ih (k + 1)]
      have : n - k = (n - (k + 1)) + 1 := by omega
      rw [this, List.drop_succ_cons]

theorem dropWhile_idem (p : Char → Bool) : ∀ l : Str, (l.dropWhile p).dropWhile p = l.dropWhile p := by
  intro l
  induction l with
  | nil => rfl
  | cons c cs ih =>
    rw [List.dropWhile_cons]
    by_cases h : p c
    · rw [if_pos h]; exact ih
    · rw [if_neg h, List.dropWhile_cons, if_neg h]

theorem trim_idem (l : Str) : trim (trim l) = trim l := by
  have hstep : (trim l).dropWhile isWS = trim l := by
    cases htl : trim l with
    | nil => rfl
    | cons c cs =>
      have hu : l.dropWhile isWS ≠ [] := by
        intro hu
        rw [trim, hu] at htl
        simp at htl
      have hhead : (trim l).head? = some c := by rw [htl]; rfl
      have hlast : ((l.dropWhile isWS).reverse.dropWhile isWS).getLast?
          = (l.dropWhile isWS).head? := by
        have hsuf := List.dropWhile_suffix (l := (l.dropWhile isWS).reverse) isWS
        obtain ⟨t, ht⟩ := hsuf
        have hne : (l.dropWhile isWS).reverse.dropWhile isWS ≠ [] := by
          intro hz
          rw [trim, hz] at htl
          simp at htl
        rw [← List.getLast?_reverse]
        conv_rhs => rw [← ht]
        exact (List.getLast?_append_of_ne_nil t hne).symm
      have hheadu : ∃ a, (l.dropWhile isWS).head? = some a ∧ isWS a = false := by
        cases hcu : (l.dropWhile isWS) with
        | nil => exact absurd hcu hu
        | cons a as =>
          refine ⟨a, rfl, ?_⟩
          have := List.head?_dropWhile_not isWS l
          rw [hcu] at this
          simpa using this
      obtain ⟨a, hha, hwa⟩ := hheadu
      have : (trim l).head? = some a := by
        rw [trim, List.head?_reverse, hlast, hha]
      rw [hhead] at this
      have hca : c = a := by injection this
      subst hca
      rw [List.dropWhile_cons, if_neg (by simp [hwa])]
  rw [trim, hstep]
  show ((trim l).reverse.dropWhile isWS).reverse = trim l
  rw [trim, List.reverse_reverse, dropWhile_idem, ← trim]

/-- On a clean body, the empty-URL branch keeps exactly the text segments —
and performs no trimming. -/
theorem cleanOrphaned_render_empty {segs : List Seg} (h : CleanSegs segs) :
    cleanOrphanedImages (render segs) [] = render (segs.filter isTextSeg) := by
  unfold cleanOrphanedImages
  have hc : ([] : List Str).length = 0 := rfl
  rw [if_pos hc]
  exact removeAll_render h

/-- On a clean body with pairwise-distinct ids and a nonempty URL list, the
orphan-cleaning step is positional truncation: the tokens beyond the first
`urls.length` are removed and the result is trimmed. -/
theorem cleanOrphaned_render_pos {segs : List Seg} {urls : List Str}
    (h : CleanSegs segs) (hnd : (segIds segs).Nodup) (hurls : urls ≠ []) :
    cleanOrphanedImages (render segs) urls
      = trim (render (keepFirstToks urls.length segs)) := by
  unfold cleanOrphanedImages
  have hlen : ¬ urls.length = 0 := by
    cases urls with
    | nil => exact absurd rfl hurls
    | cons u us => simp
  rw [if_neg hlen]
  simp only []
  rw [extract_render h]
  rw [foldl_guard_eq_filter (fun x acc => removeSub (tokenStr x) acc) urls.length]
  rw [show (segIds segs).enum = (segIds segs).enumFrom 0 from rfl]
  rw [enumFrom_filter_map_drop urls.length (segIds segs) 0, Nat.sub_zero]
  rw [fold_removeSub_render _ h
    (fun x hx => segIds_clean h x (List.drop_subset _ _ hx))]
  rw [foldl_dropTok_eq_filter, filter_drop_eq_keepFirst segs urls.length hnd]

/-- A body that the scan finds no token in is left unchanged by the
remove-every-token pass. -/
theorem removeAllTokens_of_no_ids : ∀ {b : Str}, extractImageIds b = [] → removeAllTokens b = b := by
  intro b
  induction b with
  | nil => intro _; rfl
  | cons c cs ih =>
    intro h
    cases hm : matchTokenAt (c :: cs) with
    | some pr =>
      obtain ⟨id, rest⟩ := pr
      rw [extractImageIds_match hm] at h
      simp at h
    | none =>
      rw [extractImageIds_nomatch hm] at h
      rw [removeAllTokens_nomatch hm, ih h]

/-- With a nonempty URL list and no extracted ids the cleaning step only
trims. -/
theorem cleanOrphaned_no_ids {b : Str} {urls : List Str}
    (hurls : urls ≠ []) (h : extractImageIds b = []) :
    cleanOrphanedImages b urls = trim b := by
  unfold cleanOrphanedImages
  have hlen : ¬ urls.length = 0 := by
    cases urls with
    | nil => exact absurd rfl hurls
    | cons u us => simp
  rw [if_neg hlen]
  simp only [h, List.enum_nil, List.foldl_nil]

theorem getD_drop_cons {urls rest : List Str} {u : Str} {k : Nat}
    (h : urls.drop k = u :: rest) : urls.getD k [] = u := by
  have h1 : urls[k]? = some u := by
    have := List.getElem?_drop urls k 0
    rw [h] at this
    simpa using this.symm
  simp [List.getD, List.get?_eq_getElem?, h1]

theorem getD_drop_nil {urls : List Str} {k : Nat} (h : urls.drop k = []) :
    urls.getD k [] = [] :=
  List.getD_eq_default urls [] (List.drop_eq_nil_iff.mp h)

theorem drop_succ_of_drop {urls rest : List Str} {u : Str} {k : Nat}
    (h : urls.drop k = u :: rest) : urls.drop (k + 1) = rest := by
  have h1 : urls.drop (k + 1) = (urls.drop k).drop 1 := by
    rw [List.drop_drop]
  rw [h1, h]
  rfl

theorem drop_succ_of_drop_nil {urls : List Str} {k : Nat}
    (h : urls.drop k = []) : urls.drop (k + 1) = [] := by
  have h1 : urls.drop (k + 1) = (urls.drop k).drop 1 := by
    rw [List.drop_drop]
  rw [h1, h]
  rfl

theorem serverImageData_enumFrom :
    ∀ (ids : List Str) (k : Nat) (urls : List Str),
      ((ids.enumFrom k).map (fun p => ImageData.mk p.2 (urls.getD p.1 []) [])).filter
          (fun img => !img.url.isEmpty)
        = ((ids.zip (urls.drop k)).map (fun p => ImageData.mk p.1 p.2 [])).filter
          (fun img => !img.url.isEmpty) := by
  intro ids
  induction ids with
  | nil => intro k urls; rfl
  | cons a ids' ih =>
    intro k urls
    rw [List.enumFrom, List.map_cons]
    dsimp only
    cases hdk : urls.drop k with
    | nil =>
      have hgd : urls.getD k [] = [] := getD_drop_nil hdk
      rw [hgd, List.filter_cons_of_neg (by simp)]
      rw [ih (k + 1) urls, drop_succ_of_drop_nil hdk]
      simp [List.zip_nil_right]
    | cons u rest =>
      have hgd : urls.getD k [] = u := getD_drop_cons hdk
      rw [hgd, List.zip_cons_cons, List.map_cons]
      rw [List.filter_cons, List.filter_cons]
      rw [ih (k + 1) urls, drop_succ_of_drop hdk]

/-- The positional `imageData` reconstruction of `syncWithServer` coincides
with the positional-zip reconciliation described by the spec. -/
theorem serverImageData_eq_zip (ids urls : List Str) :
    serverImageData ids urls
      = ((ids.zip urls).map (fun p => ImageData.mk p.1 p.2 [])).filter
          (fun img => !img.url.isEmpty) := by
  unfold serverImageData
  rw [show ids.enum = ids.enumFrom 0 from rfl, serverImageData_enumFrom ids 0 urls,
    List.drop_zero]

theorem clean_nil_urls (y : Str) : cleanOrphanedImages y [] = removeAllTokens y := by
  unfold cleanOrphanedImages
  have hc : ([] : List Str).length = 0 := rfl
  rw [if_pos hc]

/-- A freshly mounted component state: user present, hydration done, nothing
loaded, no cache entry, no pending timers. -/
def baseState : NState :=
  { userPresent := true
    initialLoaded := true
    value := []
    images := []
    saveState := SaveState.idle
    lastSavedValue := []
    lastSavedImages := []
    cache := none
    autosaveTimer := none
    syncTimer := none
    localWriteCount := 0
    remoteWriteCount := 0 }

/-- A state whose local cache and in-memory value hold `"hello"`. -/
def stHello : NState :=
  { baseState with
    value := "hello".data
    lastSavedValue := "hello".data
    cache := some ⟨"hello".data, []⟩ }

/-- A state whose body splices into a fresh token once the inner token is
removed, while no images are known. -/
def stSeam : NState :=
  { baseState with value := "[IMA[IMAGE:x]GE:y]".data }

/-- A small clean segment body: token `a`, text `" x"`, token `b`. -/
def segsW : List Seg := [Seg.tok "a".data, Seg.text " x".data, Seg.tok "b".data]

/-- C5: If hydration is re-invoked (the active question or user changed)
before a prior remote fetch resolves, the prior invocation's `cancelled` flag
is set by its cleanup, so when that fetch later resolves it is discarded:
neither the in-memory state nor the local cache changes.  The cleanup also
clears both debounce timers, so no timer of the previous document survives. -/
theorem C5_stale_fetch_discarded (w : HydWorld) (sd : ServerData) :
    fetchResolve (effectRestart w) w.gen sd = effectRestart w
    ∧ (effectRestart w).st.autosaveTimer = none
    ∧ (effectRestart w).st.syncTimer = none := by
  refine ⟨?_, rfl, rfl⟩
  unfold fetchResolve
  have hc : (effectRestart w).cancelled w.gen = true := by
    unfold effectRestart
    simp
  rw [hc]
  simp

/-- C1 falsified as stated: with local cache `{value: "hello", images: []}`
and the remote returning `{notes: "", notesImageUrls: []}`, the remote data
differs from the cache (`shouldUseServerData` is true), yet hydration ignores
it — state and cache keep `"hello"`, which differs from the remote body.  The
code additionally requires the remote data to be non-empty before
overwriting. -/
theorem C1_counterexample :
    shouldUseServerData stHello.cache ⟨[], []⟩ = true
    ∧ syncWithServerApply ⟨[], []⟩ stHello = stHello
    ∧ stHello.value ≠ ([] : Str) := by decide

/-- C1 (amended): after the remote fetch resolves, (1) if the cached value
equals the remote notes and the cached image urls equal the remote url list,
the remote result is ignored — in-memory state and cache are unchanged;
(2) if the remote data is empty (empty notes and empty url list), it is
likewise ignored, even when it differs from the cache; (3) if the remote data
differs (or no cache entry is readable) and is non-empty, the orphan-cleaned
remote body and the positionally reconstructed image records overwrite the
in-memory state and the local cache. -/
theorem C1_hydration_reconcile (sd : ServerData) (st : NState) :
    (∀ lc, st.cache = some lc → lc.value = sd.notes →
        lc.images.map (fun img => img.url) = sd.notesImageUrls →
        syncWithServerApply sd st = st)
    ∧ (sd.notes = [] → sd.notesImageUrls = [] → syncWithServerApply sd st = st)
    ∧ (shouldUseServerData st.cache sd = true →
        sd.notes ≠ [] ∨ sd.notesImageUrls ≠ [] →
        (syncWithServerApply sd st).value = cleanOrphanedImages sd.notes sd.notesImageUrls
        ∧ (syncWithServerApply sd st).images
            = serverImageData
                (extractImageIds (cleanOrphanedImages sd.notes sd.notesImageUrls))
                sd.notesImageUrls
        ∧ (syncWithServerApply sd st).cache
            = some ⟨cleanOrphanedImages sd.notes sd.notesImageUrls,
                serverImageData
                  (extractImageIds (cleanOrphanedImages sd.notes sd.notesImageUrls))
                  sd.notesImageUrls⟩) := by
  refine ⟨?_, ?_, ?_⟩
  · intro lc hlc hval himg
    unfold syncWithServerApply
    have hsu : shouldUseServerData st.cache sd = false := by
      rw [hlc]
      unfold shouldUseServerData
      dsimp only
      rw [if_pos ⟨hval, himg⟩]
    rw [hsu]
    simp
  · intro hn hu
    unfold syncWithServerApply
    rw [hn, hu]
    simp
  · intro hsu hne
    unfold syncWithServerApply
    have hb : (!sd.notes.isEmpty || !sd.notesImageUrls.isEmpty) = true := by
      rcases hne with h | h
      · cases hn : sd.notes with
        | nil => exact absurd hn h
        | cons a l => simp
      · cases hu : sd.notesImageUrls with
        | nil => exact absurd hu h
        | cons a l => simp
    rw [hsu, hb]
    simp

/-- Witness for `C1_hydration_reconcile` at concrete inputs. -/
theorem C1_hydration_reconcile_witness :
    (stHello.cache = some (⟨"hello".data, []⟩ : CacheRecord)
      ∧ ("hello".data : Str) = "hello".data
      ∧ ([] : List ImageData).map (fun img => img.url) = ([] : List Str)
      ∧ syncWithServerApply ⟨"hello".data, []⟩ stHello = stHello)
    ∧ (shouldUseServerData baseState.cache ⟨"world".data, []⟩ = true
      ∧ ("world".data ≠ ([] : Str) ∨ ([] : List Str) ≠ [])
      ∧ (syncWithServerApply ⟨"world".data, []⟩ baseState).value
          = cleanOrphanedImages "world".data []) :=
  ⟨⟨by decide, rfl, rfl,
      (C1_hydration_reconcile ⟨"hello".data, []⟩ stHello).1 ⟨"hello".data, []⟩
        (by decide) rfl rfl⟩,
    ⟨by decide, Or.inl (by decide),
      ((C1_hydration_reconcile ⟨"world".data, []⟩ baseState).2.2 (by decide)
        (Or.inl (by decide))).1⟩⟩

/-- C2 falsified as stated: (1) with an empty URL list the code removes every
token but does *not* trim — `"x [IMAGE:a]"` becomes `"x "`, which still ends
in whitespace; (2) removal is by id, all occurrences at once: in
`"[IMAGE:a][IMAGE:b][IMAGE:a]"` with two URLs, the third occurrence makes the
id `a` an orphan, and the *first* token is removed along with it, so earlier
tokens are not all retained. -/
theorem C2_counterexample :
    (cleanOrphanedImages "x [IMAGE:a]".data [] = "x ".data
      ∧ trim "x ".data ≠ "x ".data)
    ∧ cleanOrphanedImages "[IMAGE:a][IMAGE:b][IMAGE:a]".data ["u1".data, "u2".data]
        = "[IMAGE:b]".data := by decide

/-- C2 (amended): on bodies whose brackets occur only as token delimiters and
whose placeholder ids are pairwise distinct: with an empty valid-URL list,
`stripOrphans` removes every placeholder token and performs no trimming; with
a nonempty list it is positional truncation — every token beyond the first
`urls.length` ones is removed (removal is per-id, every occurrence of an
offending id) and the result is trimmed at both ends.  In particular
`stripOrphans("[IMAGE:a][IMAGE:b]", ["u1"])` keeps only the first token. -/
theorem C2_stripOrphans_positional (segs : List Seg) (urls : List Str)
    (hclean : CleanSegs segs) (hnd : (segIds segs).Nodup) (hurls : urls ≠ []) :
    cleanOrphanedImages (render segs) [] = render (segs.filter isTextSeg)
    ∧ cleanOrphanedImages (render segs) urls
        = trim (render (keepFirstToks urls.length segs))
    ∧ cleanOrphanedImages "[IMAGE:a][IMAGE:b]".data ["u1".data] = "[IMAGE:a]".data :=
  ⟨cleanOrphaned_render_empty hclean,
    cleanOrphaned_render_pos hclean hnd hurls,
    by decide⟩

/-- Witness for `C2_stripOrphans_positional` on a concrete clean body. -/
theorem C2_stripOrphans_positional_witness :
    CleanSegs segsW ∧ (segIds segsW).Nodup ∧ (["u".data] : List Str) ≠ []
    ∧ (cleanOrphanedImages (render segsW) [] = render (segsW.filter isTextSeg)
      ∧ cleanOrphanedImages (render segsW) ["u".data]
          = trim (render (keepFirstToks 1 segsW))
      ∧ cleanOrphanedImages "[IMAGE:a][IMAGE:b]".data ["u1".data] = "[IMAGE:a]".data) :=
  ⟨by decide, by decide, by decide,
    C2_stripOrphans_positional segsW ["u".data] (by decide) (by decide) (by decide)⟩

/-- C3 falsified in its consequence: saving the body
`"[IMA[IMAGE:x]GE:y]"` with no known images strips the single well-formed
token `[IMAGE:x]`, and the single-pass removal splices the surrounding text
into the new well-formed token `[IMAGE:y]` — so the persisted body contains a
placeholder although the persisted image list is empty. -/
theorem C3_counterexample :
    (save true stSeam).cache = some ⟨"[IMAGE:y]".data, []⟩
    ∧ extractImageIds "[IMAGE:y]".data = ["y".data]
    ∧ stSeam.images = [] := by decide

/-- C3 (amended): on every save with a user present and a successful local
write, the body persisted to the local cache — and the body later handed to
the debounced remote sync — is exactly the orphan-stripping result of the
current body against the URLs of the currently-known images.  (The claim's
consequence that no persisted placeholder can point at a missing image does
not hold in general; see the counterexample.) -/
theorem C3_save_sanitizes (st : NState) (hu : st.userPresent = true) :
    (save true st).cache
      = some ⟨cleanOrphanedImages st.value (st.images.map (fun img => img.url)),
          st.images⟩
    ∧ (save true st).syncTimer
      = some ⟨2000, cleanOrphanedImages st.value (st.images.map (fun img => img.url)),
          st.images.map (fun img => img.url)⟩ := by
  unfold save
  rw [hu]
  simp

/-- Witness for `C3_save_sanitizes` at a concrete state. -/
theorem C3_save_sanitizes_witness :
    stHello.userPresent = true
    ∧ ((save true stHello).cache
        = some ⟨cleanOrphanedImages stHello.value
              (stHello.images.map (fun img => img.url)), stHello.images⟩
      ∧ (save true stHello).syncTimer
        = some ⟨2000, cleanOrphanedImages stHello.value
              (stHello.images.map (fun img => img.url)),
            stHello.images.map (fun img => img.url)⟩) :=
  ⟨by decide, C3_save_sanitizes stHello (by decide)⟩

/-- C4: with a user present, a save writes the local cache first and only on
success transitions to `saved`, updates the last-saved snapshot and
(re)schedules the debounced remote write with the cleaned payload; a failed
local write yields `error`, leaves the cache and write count untouched and
schedules no remote write; and the later outcome of the remote sync — success
or failure — never changes the save state. -/
theorem C4_save_gating (st : NState) (hu : st.userPresent = true) :
    ((save true st).saveState = SaveState.saved
      ∧ (save true st).cache
          = some ⟨cleanOrphanedImages st.value (st.images.map (fun img => img.url)),
              st.images⟩
      ∧ (save true st).lastSavedValue
          = cleanOrphanedImages st.value (st.images.map (fun img => img.url))
      ∧ (save true st).lastSavedImages = st.images
      ∧ (save true st).localWriteCount = st.localWriteCount + 1
      ∧ (save true st).syncTimer
          = some ⟨2000, cleanOrphanedImages st.value (st.images.map (fun img => img.url)),
              st.images.map (fun img => img.url)⟩)
    ∧ ((save false st).saveState = SaveState.error
      ∧ (save false st).cache = st.cache
      ∧ (save false st).value = st.value
      ∧ (save false st).localWriteCount = st.localWriteCount
      ∧ (save false st).syncTimer = st.syncTimer)
    ∧ (∀ (remoteOk : Bool) (st' : NState),
        (fireSyncTimer remoteOk st').saveState = st'.saveState) := by
  refine ⟨?_, ?_, ?_⟩
  · unfold save
    rw [hu]
    simp
  · unfold save
    rw [hu]
    simp
  · intro remoteOk st'
    unfold fireSyncTimer
    cases st'.syncTimer <;> rfl

/-- Witness for `C4_save_gating` at a concrete state. -/
theorem C4_save_gating_witness :
    baseState.userPresent = true
    ∧ (save true baseState).saveState = SaveState.saved
    ∧ (save false baseState).saveState = SaveState.error
    ∧ (fireSyncTimer false (save true baseState)).saveState
        = (save true baseState).saveState :=
  ⟨by decide,
    (C4_save_gating baseState (by decide)).1.1,
    (C4_save_gating baseState (by decide)).2.1.1,
    (C4_save_gating baseState (by decide)).2.2 false (save true baseState)⟩

/-- Specification-side definition, following the words of spec §4.2
`reconcileAgainstUrls(body, urls)`: pair each id of `extractIds(body)` with
the URL at the same positional index (ids beyond the URL count get no pair),
and drop records whose resolved url is empty.  Stated with `zip` so it can be
compared against the code's `serverImageData`. -/
def reconcileAgainstUrls (body : Str) (urls : List Str) : List ImageData :=
  (((extractImageIds body).zip urls).map (fun p => ImageData.mk p.1 p.2 [])).filter
    (fun img => !img.url.isEmpty)

/-- C6: the hydration `imageData` reconstruction coincides with the spec's
positional reconciliation (index pairing, ids beyond the URL count dropped,
empty-url records dropped); and on the concrete example — empty cache, remote
`{notes: "[IMAGE:temp]", notesImageUrls: ["http://x/1.png"]}` — the displayed
body keeps the placeholder `temp` and its registry record resolves to
`http://x/1.png`. -/
theorem C6_reconcile_positional :
    (∀ (body : Str) (urls : List Str),
        serverImageData (extractImageIds body) urls = reconcileAgainstUrls body urls)
    ∧ (syncWithServerApply ⟨"[IMAGE:temp]".data, ["http://x/1.png".data]⟩ baseState).value
        = "[IMAGE:temp]".data
    ∧ (syncWithServerApply ⟨"[IMAGE:temp]".data, ["http://x/1.png".data]⟩ baseState).images
        = [⟨"temp".data, "http://x/1.png".data, []⟩] :=
  ⟨fun body urls => serverImageData_eq_zip (extractImageIds body) urls,
    by decide, by decide⟩

/-- C7 falsified as stated: migrating `"[IMAGE:[IMAGE:u|d]x|y]"` (empty
registry) replaces the inner legacy token, and the replacement seam
`"[IMAGE:f0]x|y]"` again matches the legacy pattern, so a second migration
rewrites the body once more — `migrateLegacy` is not idempotent for every
body and registry. -/
theorem C7_counterexample :
    migrateLegacy freshIds (migrateLegacy freshIds "[IMAGE:[IMAGE:u|d]x|y]".data []).1
        (migrateLegacy freshIds "[IMAGE:[IMAGE:u|d]x|y]".data []).2
      ≠ migrateLegacy freshIds "[IMAGE:[IMAGE:u|d]x|y]".data [] := by decide

/-- C7 (amended): whenever the output of a migration contains no remaining
legacy token — the normal case, and the premise the spec attaches — running
the migration again is a no-op on both body and registry (the
`legacyRegex.test` guard returns early), for any id supply used by the second
run. -/
theorem C7_migrate_idempotent_guard (fresh fresh' : Nat → Str) (b : Str)
    (imgs : List ImageData)
    (h : hasLegacy (migrateLegacy fresh b imgs).1 = false) :
    migrateLegacy fresh' (migrateLegacy fresh b imgs).1 (migrateLegacy fresh b imgs).2
      = migrateLegacy fresh b imgs := by
  set r := migrateLegacy fresh b imgs with hr
  show migrateLegacy fresh' r.1 r.2 = r
  unfold migrateLegacy
  rw [h]
  simp

/-- Witness for `C7_migrate_idempotent_guard` on a body whose migration
output is legacy-free. -/
theorem C7_migrate_idempotent_guard_witness :
    hasLegacy (migrateLegacy freshIds "[IMAGE:u|d]".data []).1 = false
    ∧ migrateLegacy freshIds (migrateLegacy freshIds "[IMAGE:u|d]".data []).1
        (migrateLegacy freshIds "[IMAGE:u|d]".data []).2
      = migrateLegacy freshIds "[IMAGE:u|d]".data [] :=
  ⟨by decide, C7_migrate_idempotent_guard freshIds freshIds "[IMAGE:u|d]".data [] (by decide)⟩

/-- C8: two content changes inside one autosave window coalesce — the first
change's 500ms timer is cleared by the second change, so when the surviving
timer fires exactly one local-cache write happens and it stores the cleaned
second content; that single save schedules exactly one debounced 2000ms
remote sync carrying the same payload, and its expiry POSTs once.  A change
equal to the last-saved snapshot, or without a user, schedules no autosave,
and with no pending timer the autosave expiry does nothing. -/
theorem C8_autosave_coalesce (st : NState) (v₁ v₂ : Str)
    (hu : st.userPresent = true) (hl : st.initialLoaded = true)
    (hw : st.localWriteCount = 0) (hr : st.remoteWriteCount = 0)
    (hch : ¬(v₂ = st.lastSavedValue ∧ st.images = st.lastSavedImages)) :
    ((changeValue v₂ (changeValue v₁ st)).localWriteCount = 0
      ∧ (changeValue v₂ (changeValue v₁ st)).autosaveTimer = some 500)
    ∧ ((fireAutosave true (changeValue v₂ (changeValue v₁ st))).localWriteCount = 1
      ∧ (fireAutosave true (changeValue v₂ (changeValue v₁ st))).cache
          = some ⟨cleanOrphanedImages v₂ (st.images.map (fun img => img.url)), st.images⟩
      ∧ (fireAutosave true (changeValue v₂ (changeValue v₁ st))).syncTimer
          = some ⟨2000, cleanOrphanedImages v₂ (st.images.map (fun img => img.url)),
              st.images.map (fun img => img.url)⟩)
    ∧ ((fireSyncTimer true (fireAutosave true (changeValue v₂ (changeValue v₁ st)))).remoteWriteCount = 1
      ∧ (fireSyncTimer true (fireAutosave true (changeValue v₂ (changeValue v₁ st)))).syncTimer = none)
    ∧ (∀ (v : Str) (stx : NState), v = stx.lastSavedValue → stx.images = stx.lastSavedImages →
        (changeValue v stx).autosaveTimer = none)
    ∧ (∀ (v : Str) (stx : NState), stx.userPresent = false →
        (changeValue v stx).autosaveTimer = none)
    ∧ (∀ (localOk : Bool) (stx : NState), stx.autosaveTimer = none →
        fireAutosave localOk stx = stx) := by
  have h2 : changeValue v₂ (changeValue v₁ st)
      = { st with value := v₂, autosaveTimer := some 500 } := by
    unfold changeValue hasChangesB
    simp only []
    by_cases h1 : v₁ = st.lastSavedValue ∧ st.images = st.lastSavedImages
    · rw [if_pos h1]
      simp [hu, hl, hch]
    · rw [if_neg h1]
      simp [hu, hl, hch]
  refine ⟨?_, ?_, ?_, ?_, ?_, ?_⟩
  · rw [h2]
    exact ⟨hw, rfl⟩
  · rw [h2]
    unfold fireAutosave save
    rw [hu]
    simp [hw]
  · rw [h2]
    unfold fireAutosave save
    rw [hu]
    simp only []
    unfold fireSyncTimer
    simp [hu, hr]
  · intro v stx hv himg
    unfold changeValue hasChangesB
    simp [hv, himg]
  · intro v stx hup
    unfold changeValue
    simp [hup]
  · intro localOk stx hnone
    unfold fireAutosave
    rw [hnone]

/-- Witness for `C8_autosave_coalesce` at a concrete state and contents. -/
theorem C8_autosave_coalesce_witness :
    baseState.userPresent = true ∧ baseState.initialLoaded = true
    ∧ baseState.localWriteCount = 0 ∧ baseState.remoteWriteCount = 0
    ∧ ¬("new".data = baseState.lastSavedValue ∧ baseState.images = baseState.lastSavedImages)
    ∧ (fireAutosave true (changeValue "new".data (changeValue "n".data baseState))).localWriteCount = 1
    ∧ (fireSyncTimer true (fireAutosave true (changeValue "new".data
        (changeValue "n".data baseState)))).remoteWriteCount = 1 :=
  ⟨by decide, by decide, by decide, by decide, by decide,
    (C8_autosave_coalesce baseState "n".data "new".data (by decide) (by decide)
      (by decide) (by decide) (by decide)).2.1.1,
    (C8_autosave_coalesce baseState "n".data "new".data (by decide) (by decide)
      (by decide) (by decide) (by decide)).2.2.1.1⟩

theorem extract_mem_infix :
    ∀ (n : Nat) (b : Str), b.length ≤ n → ∀ id ∈ extractImageIds b,
      id ≠ [] ∧ ']' ∉ id ∧ tokenStr id <:+: b := by
  intro n
  induction n with
  | zero =>
    intro b hb id hid
    have : b = [] := List.eq_nil_of_length_eq_zero (Nat.le_zero.mp hb)
    subst this
    exact absurd hid (by simp [extractImageIds_nil])
  | succ m ih =>
    intro b hb id hid
    cases b with
    | nil => exact absurd hid (by simp [extractImageIds_nil])
    | cons c cs =>
      cases hm : matchTokenAt (c :: cs) with
      | none =>
        rw [extractImageIds_nomatch hm] at hid
        obtain ⟨h1, h2, h3⟩ := ih cs (by simp at hb; omega) id hid
        refine ⟨h1, h2, ?_⟩
        obtain ⟨s, t, hst⟩ := h3
        exact ⟨c :: s, t, by rw [← hst]; rfl⟩
      | some pr =>
        obtain ⟨id', rest⟩ := pr
        obtain ⟨heq, hne, hnotin⟩ := matchTokenAt_some hm
        rw [extractImageIds_match hm] at hid
        rcases List.mem_cons.mp hid with h1 | h2
        · subst h1
          refine ⟨hne, hnotin, [], rest, ?_⟩
          rw [heq]
          simp
        · have hrl := matchTokenAt_rest_lt hm
          obtain ⟨h1, h2, h3⟩ := ih rest (by simp at hb hrl; omega) id h2
          refine ⟨h1, h2, ?_⟩
          obtain ⟨s, t, hst⟩ := h3
          refine ⟨tokenStr id' ++ s, t, ?_⟩
          rw [heq, ← hst]
          simp

/-- C9: the codec never throws (both operations are total functions of the
input) and matches only well-formed tokens: every id returned by
`extractImageIds` is nonempty, `]`-free and is the payload of a well-formed
`[IMAGE:<id>]` token occurring in the body; and a body in which the scan
finds no well-formed token is passed through untouched by `stripOrphans` —
as-is with an empty URL list, up to end-whitespace trimming otherwise — so
malformed tokens (unterminated or nested brackets) survive as literal text. -/
theorem C9_codec_safety :
    (∀ (b : Str) (urls : List Str), extractImageIds b = [] →
        cleanOrphanedImages b [] = b
        ∧ (urls ≠ [] → cleanOrphanedImages b urls = trim b))
    ∧ (∀ (b id : Str), id ∈ extractImageIds b →
        id ≠ [] ∧ ']' ∉ id ∧ tokenStr id <:+: b) :=
  ⟨fun b urls h =>
    ⟨by rw [clean_nil_urls, removeAllTokens_of_no_ids h],
      fun hurls => cleanOrphaned_no_ids hurls h⟩,
    fun b id hid => extract_mem_infix b.length b (Nat.le_refl _) id hid⟩

/-- Witness for `C9_codec_safety`: a malformed body (unterminated bracket) is
left alone, and a well-formed token is extracted with its id. -/
theorem C9_codec_safety_witness :
    extractImageIds "plain [text".data = []
    ∧ (cleanOrphanedImages "plain [text".data [] = "plain [text".data
      ∧ ((["u".data] : List Str) ≠ [] →
          cleanOrphanedImages "plain [text".data ["u".data] = trim "plain [text".data))
    ∧ "a".data ∈ extractImageIds "[IMAGE:a]".data
    ∧ ("a".data ≠ [] ∧ ']' ∉ "a".data ∧ tokenStr "a".data <:+: "[IMAGE:a]".data) :=
  ⟨by decide,
    C9_codec_safety.1 "plain [text".data ["u".data] (by decide),
    by decide,
    C9_codec_safety.2 "[IMAGE:a]".data "a".data (by decide)⟩

/-- C10 falsified as stated: cleaning `"[IMA[IMAGE:x]GE:y]"` with no URLs
removes the inner token and splices the remainder into the new token
`[IMAGE:y]`; a second cleaning with the same (empty) URL list removes that
one too, so the function is not idempotent for a fixed URL list. -/
theorem C10_counterexample :
    cleanOrphanedImages (cleanOrphanedImages "[IMA[IMAGE:x]GE:y]".data []) []
      ≠ cleanOrphanedImages "[IMA[IMAGE:x]GE:y]".data [] := by decide

/-- C10 (amended): `cleanOrphanedImages` is idempotent for a fixed URL list
whenever its first pass leaves no orphan to act on — that is, whenever the
cleaned output contains at most `urls.length` extracted ids (with an empty
URL list this means no token at all).  In general idempotence fails because
the single-pass removal can splice surrounding characters into a new token;
see the counterexample. -/
theorem C10_idem_cond (b : Str) (urls : List Str)
    (h : (extractImageIds (cleanOrphanedImages b urls)).length ≤ urls.length) :
    cleanOrphanedImages (cleanOrphanedImages b urls) urls
      = cleanOrphanedImages b urls := by
  by_cases hurls : urls.length = 0
  · have hnil : extractImageIds (cleanOrphanedImages b urls) = [] := by
      apply List.eq_nil_of_length_eq_zero
      omega
    have hu : urls = [] := List.eq_nil_of_length_eq_zero hurls
    subst hu
    rw [clean_nil_urls, removeAllTokens_of_no_ids hnil]
  · have key : cleanOrphanedImages (cleanOrphanedImages b urls) urls
        = trim (cleanOrphanedImages b urls) := by
      set y := cleanOrphanedImages b urls with hy
      unfold cleanOrphanedImages
      rw [if_neg hurls]
      simp only []
      rw [foldl_guard_eq_filter (fun x acc => removeSub (tokenStr x) acc) urls.length,
        show (extractImageIds y).enum = (extractImageIds y).enumFrom 0 from rfl,
        enumFrom_filter_map_drop urls.length (extractImageIds y) 0, Nat.sub_zero,
        List.drop_eq_nil_of_le h, List.foldl_nil]
    rw [key]
    have hex : ∃ w, cleanOrphanedImages b urls = trim w := by
      unfold cleanOrphanedImages
      rw [if_neg hurls]
      exact ⟨_, rfl⟩
    obtain ⟨w, hw⟩ := hex
    rw [hw, trim_idem]

/-- Witness for `C10_idem_cond` on a body the cleaning leaves token-complete. -/
theorem C10_idem_cond_witness :
    (extractImageIds (cleanOrphanedImages "[IMAGE:a] x".data ["u".data])).length
        ≤ (["u".data] : List Str).length
    ∧ cleanOrphanedImages (cleanOrphanedImages "[IMAGE:a] x".data ["u".data]) ["u".data]
        = cleanOrphanedImages "[IMAGE:a] x".data ["u".data] :=
  ⟨by decide, C10_idem_cond "[IMAGE:a] x".data ["u".data] (by decide)⟩

end MedQ
